import Mathlib

/-!
Verification of the odrefresh compilation-log backoff scheduler and the
ProfileAssistant result codes of the CherishOS-ABC/art repository.

The OdrCompilationLog implementation is exercised by the test file
`src/profman/profile_assistant.h` (second translation unit); the engine
itself (entry codec, bounded history, persistence, backoff decision) is
modelled from the specification, faithful to its wording, and checked
against the behaviour pinned by the tests.
-/

/-- Whitespace predicate used by stream extraction (space, newline, tab, CR). -/
def isWs (c : Char) : Bool := c = ' ' || c = '\n' || c = '\t' || c = '\r'

/-- Decimal digit predicate. -/
def isDigit (c : Char) : Bool := decide ('0' ≤ c) && decide (c ≤ '9')

/-- The character for a single decimal digit value. -/
def digitChar (d : Nat) : Char := Char.ofNat (48 + d)

/-- The numeric value of a decimal digit character. -/
def digitVal (c : Char) : Nat := c.toNat - 48

/-- Value of a list of decimal digit characters, most significant first. -/
def digitsVal (l : List Char) : Nat := l.foldl (fun a c => a * 10 + digitVal c) 0

/-- Fuel-driven decimal rendering of a natural number (most significant first).
Structural in the fuel so that it evaluates inside the kernel. -/
def natDigitsAux : Nat → Nat → List Char → List Char
  | 0, _, acc => acc
  | fuel + 1, n, acc =>
    if n < 10 then digitChar n :: acc
    else natDigitsAux fuel (n / 10) (digitChar (n % 10) :: acc)

/-- Decimal rendering of a natural number. -/
def natDigits (n : Nat) : List Char := natDigitsAux (n + 1) n []

/-- Decimal rendering of an integer: optional minus sign followed by digits. -/
def intChars (i : Int) : List Char :=
  if i < 0 then '-' :: natDigits i.natAbs else natDigits i.natAbs

/-- Parse a whole token of decimal digits; fails on an empty or non-numeric token. -/
def parseDigits (l : List Char) : Option Nat :=
  if l.isEmpty then none
  else if l.all isDigit then some (digitsVal l) else none

/-- Parse a whole token as a signed decimal integer (optional leading sign). -/
def parseIntToken (l : List Char) : Option Int :=
  match l with
  | [] => none
  | c :: rest =>
    if c = '-' then (parseDigits rest).map (fun n => -(n : Int))
    else if c = '+' then (parseDigits rest).map (fun n => (n : Int))
    else (parseDigits (c :: rest)).map (fun n => (n : Int))

/-- A compilation log entry, as used by the tests in
`src/profman/profile_assistant.h`: apex version (int64), trigger (int32),
timestamp in seconds (time_t), exit code (int32). Machine integers are
modelled as mathematical integers; representability bounds are stated
separately where a claim needs them. -/
structure OdrCompilationLogEntry where
  apex_version : Int
  trigger : Int
  when : Int
  exit_code : Int
deriving DecidableEq

/-- Modelled from the spec: the entry equality operator of the missing
`odr_compilation_log.h`; two entries are equal iff all four fields are equal. -/
def entryEq (a b : OdrCompilationLogEntry) : Bool :=
  a.apex_version == b.apex_version && a.trigger == b.trigger &&
    a.when == b.when && a.exit_code == b.exit_code

/-- Modelled from the spec: the encoder of the missing `odr_compilation_log.cc`
stream-output operator; four fields as whitespace-separated decimal tokens in
fixed field order, terminated by a newline. -/
def encodeEntry (e : OdrCompilationLogEntry) : List Char :=
  intChars e.apex_version ++ ' ' ::
    (intChars e.trigger ++ ' ' ::
      (intChars e.when ++ ' ' ::
        (intChars e.exit_code ++ ['\n'])))

/-- A text input stream: remaining characters plus the failbit and badbit of
the C++ stream state. -/
structure Istream where
  data : List Char
  fail : Bool
  bad : Bool
deriving DecidableEq

/-- Modelled from the spec: formatted integer extraction on a stream. A failed
stream extracts nothing; otherwise leading whitespace is skipped and the next
whitespace-delimited token is parsed as a decimal integer, setting the failbit
on an absent or malformed token (stream exhaustion is recoverable: the badbit
is never set). -/
def extractInt (s : Istream) : Istream × Int :=
  if s.fail then (s, 0)
  else
    let rest := s.data.dropWhile isWs
    let tok := rest.takeWhile (fun c => !isWs c)
    let rem := rest.dropWhile (fun c => !isWs c)
    match parseIntToken tok with
    | some v => ({ data := rem, fail := false, bad := s.bad }, v)
    | none => ({ data := rem, fail := true, bad := s.bad }, 0)

/-- Modelled from the spec: the decoder of the missing `odr_compilation_log.cc`
stream-input operator; reads exactly four whitespace-separated tokens and
yields an entry only when all four extractions succeed. -/
def decodeEntry (s : Istream) : Istream × Option OdrCompilationLogEntry :=
  let p1 := extractInt s
  let p2 := extractInt p1.1
  let p3 := extractInt p2.1
  let p4 := extractInt p3.1
  if p4.1.fail then (p4.1, none)
  else (p4.1, some ⟨p1.2, p2.2, p3.2, p4.2⟩)

/-- Number of whitespace-separated tokens remaining in a character stream,
tracked with a flag recording whether the scan is inside a token. -/
def tokenCountAux : List Char → Bool → Nat
  | [], _ => 0
  | c :: cs, inTok =>
    if isWs c then tokenCountAux cs false
    else (if inTok then 0 else 1) + tokenCountAux cs true

/-- Number of whitespace-separated tokens in a character stream. -/
def tokenCount (l : List Char) : Nat := tokenCountAux l false

/-- Modelled from the spec: the retained-history capacity
`OdrCompilationLog::kMaxLoggedEntries` of the missing `odr_compilation_log.h`.
The spec pins it only as a fixed positive constant at least 4 (large enough for
the failure runs the tests exercise); the proofs below use only that it is
positive, so the chosen value is immaterial to the theorems. -/
def kMaxLoggedEntries : Nat := 4

/-- Modelled from the spec: append one entry to the bounded history, evicting
the oldest entry when the capacity is exceeded. -/
def logAppend (l : List OdrCompilationLogEntry) (e : OdrCompilationLogEntry) :
    List OdrCompilationLogEntry :=
  let l2 := l ++ [e]
  if kMaxLoggedEntries < l2.length then l2.tail else l2

/-- Modelled from the spec: `OdrCompilationLog::NumberOfEntries`. -/
def NumberOfEntries (l : List OdrCompilationLogEntry) : Nat := l.length

/-- Modelled from the spec: `OdrCompilationLog::Peek`; the entry at the given
position of the retained window (oldest first), or none past the end. -/
def Peek (l : List OdrCompilationLogEntry) (i : Nat) : Option OdrCompilationLogEntry := l[i]?

/-- The history obtained by appending a sequence of entries to an initially
empty in-memory log. -/
def runLog (es : List OdrCompilationLogEntry) : List OdrCompilationLogEntry :=
  es.foldl logAppend []

/-- Modelled from the spec: the persistence adapter rewrites the whole file to
the in-memory window, oldest first, one encoded line per entry. -/
def writeLogFile (l : List OdrCompilationLogEntry) : List Char :=
  (l.map encodeEntry).flatten

/-- Decode entries sequentially until the first decode failure (fuel-driven so
that it evaluates inside the kernel; the fuel is sized off the data). -/
def readAllAux : Nat → Istream → List OdrCompilationLogEntry → List OdrCompilationLogEntry
  | 0, _, acc => acc.reverse
  | fuel + 1, s, acc =>
    match decodeEntry s with
    | (_, none) => acc.reverse
    | (s2, some e) => readAllAux fuel s2 (e :: acc)

/-- All entries decodable from the given file contents, in order. -/
def readAllEntries (data : List Char) : List OdrCompilationLogEntry :=
  readAllAux (data.length + 1) ⟨data, false, false⟩ []

/-- Modelled from the spec: hydrate the bounded history from file contents,
keeping only the last `kMaxLoggedEntries` decoded entries. -/
def loadLog (data : List Char) : List OdrCompilationLogEntry :=
  (readAllEntries data).drop ((readAllEntries data).length - kMaxLoggedEntries)

/-- One step of the persisted workflow: construct the engine from the file,
log one entry, and capture the rewritten file contents. -/
def persistentStep (file : List Char) (e : OdrCompilationLogEntry) : List Char :=
  writeLogFile (logAppend (loadLog file) e)

/-- File contents after logging a sequence of entries one at a time, with the
engine re-constructed from the file between the log calls. -/
def persistentRun (es : List OdrCompilationLogEntry) : List Char :=
  es.foldl persistentStep []

/-- Chain-decode a fixed number of entries from a stream, stopping early on a
decode failure. -/
def decodeN : Nat → Istream → Istream × List OdrCompilationLogEntry
  | 0, s => (s, [])
  | n + 1, s =>
    match decodeEntry s with
    | (s2, none) => (s2, [])
    | (s2, some e) =>
      match decodeN n s2 with
      | (s3, es) => (s3, e :: es)

/-- Seconds per day, as in the test file. -/
def kSecondsPerDay : Int := 86400

/-- Modelled from the spec: the distinguished `OdrMetrics::Trigger::kUnknown`
value; only its distinguishedness matters to the claims. -/
def kTriggerUnknown : Int := 0

/-- Modelled from the spec: the `ExitCode::kCompilationSuccess` outcome value;
every other outcome value is failure-like. -/
def kCompilationSuccess : Int := 2

/-- Modelled from the spec: an outcome is failure-like unless it is the
distinguished success outcome. -/
def failureLike (e : OdrCompilationLogEntry) : Bool :=
  !(e.exit_code == kCompilationSuccess)

/-- Modelled from the spec: an entry matches a candidate iff the subject
version is identical and the candidate trigger is either the distinguished
unknown value or equal to the stored trigger. -/
def entryMatches (apexVersion trigger : Int) (e : OdrCompilationLogEntry) : Bool :=
  e.apex_version == apexVersion &&
    (trigger == kTriggerUnknown || e.trigger == trigger)

/-- Modelled from the spec: scan a newest-first history for the first entry
matching the candidate. -/
def findMatchNewest : List OdrCompilationLogEntry → Int → Int → Option OdrCompilationLogEntry
  | [], _, _ => none
  | e :: rest, v, t => if entryMatches v t e then some e else findMatchNewest rest v t

/-- Modelled from the spec: walk a newest-first history counting the trailing
consecutive run of matching failure-like entries, skipping non-matching
entries without breaking the run and stopping at a matching success. -/
def countFailNewest : List OdrCompilationLogEntry → Int → Int → Nat
  | [], _, _ => 0
  | e :: rest, v, t =>
    if entryMatches v t e then
      if failureLike e then countFailNewest rest v t + 1 else 0
    else countFailNewest rest v t

/-- Modelled from the spec: `OdrCompilationLog::ShouldAttemptCompile`. The
history is oldest-first; the scan runs newest to oldest. With no matching
entry the attempt is allowed; otherwise the elapsed time since the matching
entry must reach the backoff (half a day after a success, `2^(k-1)` days after
`k` consecutive matching failures), equality included. -/
def ShouldAttemptCompile (entries : List OdrCompilationLogEntry)
    (apexVersion trigger now : Int) : Bool :=
  match findMatchNewest entries.reverse apexVersion trigger with
  | none => true
  | some e =>
    let backoff : Int :=
      if failureLike e then
        2 ^ (countFailNewest entries.reverse apexVersion trigger - 1) * kSecondsPerDay
      else kSecondsPerDay / 2
    decide (backoff ≤ now - e.when)

/-- The matching entries of the history, newest first (the claim-side view of
the scan in the decision algorithm). -/
def matchingNewestFirst (l : List OdrCompilationLogEntry) (v t : Int) :
    List OdrCompilationLogEntry :=
  l.reverse.filter (entryMatches v t)

/-- Length of the trailing consecutive run of matching failure-like entries
(newest first), the claim-side count `k`. -/
def trailingFailRun (l : List OdrCompilationLogEntry) (v t : Int) : Nat :=
  ((matchingNewestFirst l v t).takeWhile failureLike).length

/-- The backoff duration the specification assigns to a most recent matching
entry: half of one day in seconds after a success, `2^(k-1)` days in seconds
after a trailing run of `k` matching failures. -/
def specBackoff (l : List OdrCompilationLogEntry) (v t : Int)
    (e : OdrCompilationLogEntry) : Int :=
  if e.exit_code = kCompilationSuccess then kSecondsPerDay / 2
  else 2 ^ (trailingFailRun l v t - 1) * kSecondsPerDay

/-- Representability bounds of a log entry: int64 apex version and timestamp,
int32 trigger and exit code, as in the source types. -/
def Representable (e : OdrCompilationLogEntry) : Prop :=
  -(2 ^ 63) ≤ e.apex_version ∧ e.apex_version < 2 ^ 63 ∧
    -(2 ^ 31) ≤ e.trigger ∧ e.trigger < 2 ^ 31 ∧
    -(2 ^ 63) ≤ e.when ∧ e.when < 2 ^ 63 ∧
    -(2 ^ 31) ≤ e.exit_code ∧ e.exit_code < 2 ^ 31

instance (e : OdrCompilationLogEntry) : Decidable (Representable e) := by
  unfold Representable; infer_instance

/-- The `ProfileAssistant::ProcessingResult` outcomes, from
`src/profman/profile_assistant.h` (the I/O-error outcome is spelled
`kErrorIo` here for the source's capitalised spelling). -/
inductive ProcessingResult where
  | kSuccess
  | kCompile
  | kSkipCompilation
  | kErrorBadProfiles
  | kErrorIo
  | kErrorCannotLock
  | kErrorDifferentVersions
deriving DecidableEq, Fintype

/-- The numeric process result code of each outcome, from the enumerator
values in `src/profman/profile_assistant.h`. -/
def ProcessingResult.code : ProcessingResult → Nat
  | .kSuccess => 0
  | .kCompile => 1
  | .kSkipCompilation => 2
  | .kErrorBadProfiles => 3
  | .kErrorIo => 4
  | .kErrorCannotLock => 5
  | .kErrorDifferentVersions => 6

theorem digitVal_digitChar : ∀ d < 10, digitVal (digitChar d) = d := by decide

theorem isDigit_digitChar : ∀ d < 10, isDigit (digitChar d) = true := by decide

theorem isWs_digitChar : ∀ d < 10, isWs (digitChar d) = false := by decide

theorem ws_not_digit (c : Char) (h : isWs c = true) : isDigit c = false := by
  simp only [isWs, Bool.or_eq_true, decide_eq_true_eq] at h
  rcases h with ((h | h) | h) | h <;> subst h <;> decide

theorem digit_not_ws (c : Char) (h : isDigit c = true) : isWs c = false := by
  cases hw : isWs c with
  | false => rfl
  | true => rw [ws_not_digit c hw] at h; exact absurd h (by simp)

theorem natDigitsAux_acc (fuel : Nat) :
    ∀ n acc, natDigitsAux fuel n acc = natDigitsAux fuel n [] ++ acc := by
  induction fuel with
  | zero => intro n acc; simp [natDigitsAux]
  | succ f ih =>
    intro n acc
    by_cases h : n < 10
    · simp [natDigitsAux, h]
    · simp only [natDigitsAux, if_neg h]
      rw [ih (n / 10) (digitChar (n % 10) :: acc), ih (n / 10) [digitChar (n % 10)]]
      simp

theorem natDigitsAux_fuel (f1 : Nat) :
    ∀ f2 n acc, n < f1 → n < f2 → natDigitsAux f1 n acc = natDigitsAux f2 n acc := by
  induction f1 with
  | zero => intro f2 n acc h1 _; exact absurd h1 (Nat.not_lt_zero n)
  | succ f ih =>
    intro f2 n acc h1 h2
    cases f2 with
    | zero => exact absurd h2 (Nat.not_lt_zero n)
    | succ g =>
      by_cases h : n < 10
      · simp [natDigitsAux, h]
      · simp only [natDigitsAux, if_neg h]
        have hn : 0 < n := by omega
        have hdiv : n / 10 < n := Nat.div_lt_self hn (by omega)
        exact ih g (n / 10) _ (by omega) (by omega)

theorem natDigits_lt_ten {n : Nat} (h : n < 10) : natDigits n = [digitChar n] := by
  simp [natDigits, natDigitsAux, h]

theorem natDigits_ge_ten {n : Nat} (h : ¬ n < 10) :
    natDigits n = natDigits (n / 10) ++ [digitChar (n % 10)] := by
  have hn : 0 < n := by omega
  have hdiv : n / 10 < n := Nat.div_lt_self hn (by omega)
  conv_lhs => rw [natDigits, natDigitsAux]
  rw [if_neg h, natDigitsAux_acc n (n / 10) [digitChar (n % 10)],
    natDigitsAux_fuel n (n / 10 + 1) (n / 10) [] hdiv (Nat.lt_succ_self _)]
  rfl

theorem natDigits_ne_nil (n : Nat) : natDigits n ≠ [] := by
  by_cases h : n < 10
  · simp [natDigits_lt_ten h]
  · simp [natDigits_ge_ten h]

theorem natDigits_all_digits (n : Nat) : ∀ c ∈ natDigits n, isDigit c = true := by
  induction n using Nat.strong_induction_on with
  | _ n ih =>
    by_cases h : n < 10
    · rw [natDigits_lt_ten h]
      intro c hc
      simp only [List.mem_singleton] at hc
      subst hc
      exact isDigit_digitChar n h
    · rw [natDigits_ge_ten h]
      intro c hc
      rcases List.mem_append.mp hc with hl | hr
      · have hn : 0 < n := by omega
        exact ih (n / 10) (Nat.div_lt_self hn (by omega)) c hl
      · simp only [List.mem_singleton] at hr
        subst hr
        exact isDigit_digitChar _ (Nat.mod_lt n (by omega))

theorem digitsVal_append_digit (xs : List Char) (c : Char) :
    digitsVal (xs ++ [c]) = digitsVal xs * 10 + digitVal c := by
  simp [digitsVal, List.foldl_append]

theorem digitsVal_natDigits (n : Nat) : digitsVal (natDigits n) = n := by
  induction n using Nat.strong_induction_on with
  | _ n ih =>
    by_cases h : n < 10
    · rw [natDigits_lt_ten h]
      simp [digitsVal, digitVal_digitChar n h]
    · rw [natDigits_ge_ten h, digitsVal_append_digit]
      have hn : 0 < n := by omega
      rw [ih (n / 10) (Nat.div_lt_self hn (by omega)),
        digitVal_digitChar _ (Nat.mod_lt n (by omega))]
      omega

theorem parseDigits_natDigits (n : Nat) : parseDigits (natDigits n) = some n := by
  have hne := natDigits_ne_nil n
  have hall := natDigits_all_digits n
  simp only [parseDigits, List.isEmpty_iff, hne, if_false]
  rw [if_pos, digitsVal_natDigits]
  exact List.all_eq_true.mpr hall

theorem parseIntToken_intChars (i : Int) : parseIntToken (intChars i) = some i := by
  by_cases h : i < 0
  · simp only [intChars, if_pos h, parseIntToken, if_pos rfl, parseDigits_natDigits]
    show some (-((i.natAbs : Int))) = some i
    have habs : ((i.natAbs : Int)) = -i := Int.ofNat_natAbs_of_nonpos (le_of_lt h)
    rw [habs, neg_neg]
  · simp only [intChars, if_neg h]
    obtain ⟨c, cs, hcons⟩ : ∃ c cs, natDigits i.natAbs = c :: cs := by
      cases hh : natDigits i.natAbs with
      | nil => exact absurd hh (natDigits_ne_nil _)
      | cons c cs => exact ⟨c, cs, rfl⟩
    have hdig : isDigit c = true := by
      apply natDigits_all_digits i.natAbs
      rw [hcons]; exact List.mem_cons_self c cs
    have hcm : c ≠ '-' := by rintro rfl; simp [isDigit] at hdig
    have hcp : c ≠ '+' := by rintro rfl; simp [isDigit] at hdig
    rw [hcons, parseIntToken, if_neg hcm, if_neg hcp, ← hcons, parseDigits_natDigits]
    show some ((i.natAbs : Int)) = some i
    rw [Int.natAbs_of_nonneg (not_lt.mp h)]

theorem intChars_all_nonWs (i : Int) : ∀ c ∈ intChars i, isWs c = false := by
  intro c hc
  by_cases h : i < 0
  · simp only [intChars, if_pos h, List.mem_cons] at hc
    rcases hc with rfl | hc
    · decide
    · exact digit_not_ws c (natDigits_all_digits _ c hc)
  · simp only [intChars, if_neg h] at hc
    exact digit_not_ws c (natDigits_all_digits _ c hc)

theorem intChars_ne_nil (i : Int) : intChars i ≠ [] := by
  by_cases h : i < 0 <;> simp [intChars, h, natDigits_ne_nil]

theorem dropWhile_append_of_all {p : Char → Bool} (w l : List Char)
    (hw : ∀ c ∈ w, p c = true) : (w ++ l).dropWhile p = l.dropWhile p := by
  induction w with
  | nil => simp
  | cons c cs ih =>
    have hc : p c = true := hw c (List.mem_cons_self c cs)
    simp only [List.cons_append, List.dropWhile_cons, hc, if_true]
    exact ih (fun x hx => hw x (List.mem_cons_of_mem c hx))

theorem dropWhile_cons_neg {p : Char → Bool} (c : Char) (cs : List Char)
    (hc : p c = false) : (c :: cs).dropWhile p = c :: cs := by
  simp [List.dropWhile_cons, hc]

theorem takeWhile_append_stop {p : Char → Bool} (tok rest : List Char)
    (htok : ∀ c ∈ tok, p c = true)
    (hrest : ∀ c, rest.head? = some c → p c = false) :
    (tok ++ rest).takeWhile p = tok := by
  induction tok with
  | nil =>
    cases rest with
    | nil => rfl
    | cons r rs =>
      have hr : p r = false := hrest r rfl
      simp [List.takeWhile_cons, hr]
  | cons c cs ih =>
    have hc : p c = true := htok c (List.mem_cons_self c cs)
    simp only [List.cons_append, List.takeWhile_cons, hc, if_true, List.cons.injEq, true_and]
    exact ih (fun x hx => htok x (List.mem_cons_of_mem c hx))

theorem dropWhile_append_stop {p : Char → Bool} (tok rest : List Char)
    (htok : ∀ c ∈ tok, p c = true)
    (hrest : ∀ c, rest.head? = some c → p c = false) :
    (tok ++ rest).dropWhile p = rest := by
  induction tok with
  | nil =>
    cases rest with
    | nil => rfl
    | cons r rs =>
      have hr : p r = false := hrest r rfl
      simp [List.dropWhile_cons, hr]
  | cons c cs ih =>
    have hc : p c = true := htok c (List.mem_cons_self c cs)
    simp only [List.cons_append, List.dropWhile_cons, hc, if_true]
    exact ih (fun x hx => htok x (List.mem_cons_of_mem c hx))

theorem extractInt_token (w tok rest : List Char) (b : Bool) (i : Int)
    (hw : ∀ c ∈ w, isWs c = true)
    (htok : ∀ c ∈ tok, isWs c = false)
    (htokne : tok ≠ [])
    (hrest : ∀ c, rest.head? = some c → isWs c = true)
    (hparse : parseIntToken tok = some i) :
    extractInt ⟨w ++ tok ++ rest, false, b⟩ = (⟨rest, false, b⟩, i) := by
  have hnw : ∀ c ∈ tok, (fun c => !isWs c) c = true := by
    intro c hc; simp [htok c hc]
  have hnr : ∀ c, rest.head? = some c → (fun c => !isWs c) c = false := by
    intro c hc; simp [hrest c hc]
  have hdrop : (w ++ tok ++ rest).dropWhile isWs = tok ++ rest := by
    rw [List.append_assoc, dropWhile_append_of_all w (tok ++ rest) hw]
    cases tok with
    | nil => exact absurd rfl htokne
    | cons c cs =>
      exact dropWhile_cons_neg c (cs ++ rest) (htok c (List.mem_cons_self c cs))
  simp only [extractInt, if_neg (by simp : ¬ (false = true)), hdrop,
    takeWhile_append_stop tok rest hnw hnr, dropWhile_append_stop tok rest hnw hnr, hparse]

theorem head_space_ws : ∀ (l : List Char) (c : Char), (' ' :: l).head? = some c → isWs c = true := by
  intro l c hc
  simp only [List.head?_cons, Option.some.injEq] at hc
  subst hc; decide

theorem head_newline_ws : ∀ (l : List Char) (c : Char), ('\n' :: l).head? = some c → isWs c = true := by
  intro l c hc
  simp only [List.head?_cons, Option.some.injEq] at hc
  subst hc; decide

theorem space_all_ws : ∀ c ∈ [' '], isWs c = true := by
  intro c hc
  simp only [List.mem_singleton] at hc
  subst hc; decide

theorem decodeEntry_encode (w : List Char) (hw : ∀ c ∈ w, isWs c = true)
    (e : OdrCompilationLogEntry) (rest : List Char) :
    decodeEntry ⟨w ++ encodeEntry e ++ rest, false, false⟩ =
      (⟨'\n' :: rest, false, false⟩, some e) := by
  have h1 : extractInt ⟨w ++ encodeEntry e ++ rest, false, false⟩ =
      (⟨' ' :: (intChars e.trigger ++ ' ' :: (intChars e.when ++ ' ' ::
        (intChars e.exit_code ++ '\n' :: rest))), false, false⟩, e.apex_version) := by
    have hd : w ++ encodeEntry e ++ rest =
        w ++ intChars e.apex_version ++ (' ' :: (intChars e.trigger ++ ' ' ::
          (intChars e.when ++ ' ' :: (intChars e.exit_code ++ '\n' :: rest)))) := by
      simp [encodeEntry, List.append_assoc]
    rw [hd]
    exact extractInt_token w _ _ false _ hw (intChars_all_nonWs _) (intChars_ne_nil _)
      (head_space_ws _) (parseIntToken_intChars _)
  have h2 : extractInt ⟨' ' :: (intChars e.trigger ++ ' ' :: (intChars e.when ++ ' ' ::
        (intChars e.exit_code ++ '\n' :: rest))), false, false⟩ =
      (⟨' ' :: (intChars e.when ++ ' ' :: (intChars e.exit_code ++ '\n' :: rest)),
        false, false⟩, e.trigger) := by
    have hd : ' ' :: (intChars e.trigger ++ ' ' :: (intChars e.when ++ ' ' ::
        (intChars e.exit_code ++ '\n' :: rest))) =
        [' '] ++ intChars e.trigger ++ (' ' :: (intChars e.when ++ ' ' ::
          (intChars e.exit_code ++ '\n' :: rest))) := by
      simp
    rw [hd]
    exact extractInt_token [' '] _ _ false _ space_all_ws (intChars_all_nonWs _)
      (intChars_ne_nil _) (head_space_ws _) (parseIntToken_intChars _)
  have h3 : extractInt ⟨' ' :: (intChars e.when ++ ' ' :: (intChars e.exit_code ++ '\n' :: rest)),
        false, false⟩ =
      (⟨' ' :: (intChars e.exit_code ++ '\n' :: rest), false, false⟩, e.when) := by
    have hd : ' ' :: (intChars e.when ++ ' ' :: (intChars e.exit_code ++ '\n' :: rest)) =
        [' '] ++ intChars e.when ++ (' ' :: (intChars e.exit_code ++ '\n' :: rest)) := by
      simp
    rw [hd]
    exact extractInt_token [' '] _ _ false _ space_all_ws (intChars_all_nonWs _)
      (intChars_ne_nil _) (head_space_ws _) (parseIntToken_intChars _)
  have h4 : extractInt ⟨' ' :: (intChars e.exit_code ++ '\n' :: rest), false, false⟩ =
      (⟨'\n' :: rest, false, false⟩, e.exit_code) := by
    have hd : ' ' :: (intChars e.exit_code ++ '\n' :: rest) =
        [' '] ++ intChars e.exit_code ++ ('\n' :: rest) := by
      simp
    rw [hd]
    exact extractInt_token [' '] _ _ false _ space_all_ws (intChars_all_nonWs _)
      (intChars_ne_nil _) (head_newline_ws _) (parseIntToken_intChars _)
  simp only [decodeEntry, h1, h2, h3, h4]
  simp

theorem tokenCountAux_dropWhile (l : List Char) :
    tokenCountAux (l.dropWhile isWs) false = tokenCountAux l false := by
  induction l with
  | nil => rfl
  | cons c cs ih =>
    cases hc : isWs c with
    | true => simp only [List.dropWhile_cons, hc, if_true, tokenCountAux]; exact ih
    | false => simp [List.dropWhile_cons, hc]

theorem tokenCountAux_nonws_append (tok : List Char) :
    ∀ rest, (∀ c ∈ tok, isWs c = false) →
      tokenCountAux (tok ++ rest) true = tokenCountAux rest true := by
  induction tok with
  | nil => intro rest _; rfl
  | cons c cs ih =>
    intro rest htok
    have hc : isWs c = false := htok c (List.mem_cons_self c cs)
    have ih2 := ih rest (fun x hx => htok x (List.mem_cons_of_mem c hx))
    simp [tokenCountAux, hc, ih2]

theorem tokenCountAux_token (tok rest : List Char) (hne : tok ≠ [])
    (htok : ∀ c ∈ tok, isWs c = false) :
    tokenCountAux (tok ++ rest) false = 1 + tokenCountAux rest true := by
  cases tok with
  | nil => exact absurd rfl hne
  | cons c cs =>
    have hc : isWs c = false := htok c (List.mem_cons_self c cs)
    have h2 := tokenCountAux_nonws_append cs rest (fun x hx => htok x (List.mem_cons_of_mem c hx))
    simp [tokenCountAux, hc, h2]

theorem dropWhile_head_false {p : Char → Bool} :
    ∀ (l : List Char) (c : Char) (cs : List Char), l.dropWhile p = c :: cs → p c = false := by
  intro l
  induction l with
  | nil => intro c cs h; exact absurd h (by simp)
  | cons a as ih =>
    intro c cs h
    cases hp : p a with
    | true => rw [List.dropWhile_cons, hp, if_pos rfl] at h; exact ih c cs h
    | false =>
      rw [List.dropWhile_cons, hp] at h
      simp only [Bool.false_eq_true, if_false, List.cons.injEq] at h
      rw [← h.1]; exact hp

theorem tokenCountAux_start (l : List Char)
    (h : ∀ c cs, l = c :: cs → isWs c = true) :
    tokenCountAux l true = tokenCountAux l false := by
  cases l with
  | nil => rfl
  | cons c cs =>
    have hc : isWs c = true := h c cs rfl
    simp [tokenCountAux, hc]

theorem extractInt_failtrue (s : Istream) (h : s.fail = true) : extractInt s = (s, 0) := by
  simp [extractInt, h]

theorem extractInt_bad (s : Istream) : ((extractInt s).1).bad = s.bad := by
  by_cases h : s.fail = true
  · rw [extractInt_failtrue s h]
  · simp only [extractInt, if_neg h]
    cases hp : parseIntToken ((s.data.dropWhile isWs).takeWhile (fun c => !isWs c)) with
    | none => simp [hp]
    | some v => simp [hp]

theorem extractInt_fail_mono (s : Istream) (h : s.fail = true) :
    ((extractInt s).1).fail = true := by
  rw [extractInt_failtrue s h]; exact h

theorem extractInt_fail_rev (s : Istream) (h : ((extractInt s).1).fail = false) :
    s.fail = false := by
  cases hs : s.fail with
  | false => rfl
  | true => rw [extractInt_fail_mono s hs] at h; exact absurd h (by simp)

theorem extractInt_succ_token (s : Istream) (hs : s.fail = false)
    (h : ((extractInt s).1).fail = false) :
    tokenCount s.data = tokenCount ((extractInt s).1).data + 1 := by
  have hsne : ¬ s.fail = true := by simp [hs]
  simp only [extractInt, if_neg hsne] at h ⊢
  cases hp : parseIntToken ((s.data.dropWhile isWs).takeWhile (fun c => !isWs c)) with
  | none => simp [hp] at h
  | some v =>
    simp only [hp]
    have htokne : (s.data.dropWhile isWs).takeWhile (fun c => !isWs c) ≠ [] := by
      intro hnil
      rw [hnil] at hp
      exact absurd hp (by simp [parseIntToken])
    have htok : ∀ c ∈ (s.data.dropWhile isWs).takeWhile (fun c => !isWs c), isWs c = false := by
      intro c hc
      have := List.mem_takeWhile_imp hc
      simpa using this
    have hsplit : (s.data.dropWhile isWs).takeWhile (fun c => !isWs c) ++
        (s.data.dropWhile isWs).dropWhile (fun c => !isWs c) = s.data.dropWhile isWs :=
      List.takeWhile_append_dropWhile _ _
    have hrem : ∀ c cs, (s.data.dropWhile isWs).dropWhile (fun c => !isWs c) = c :: cs →
        isWs c = true := by
      intro c cs hcons
      have := dropWhile_head_false _ c cs hcons
      simpa using this
    calc tokenCount s.data
        = tokenCountAux (s.data.dropWhile isWs) false := (tokenCountAux_dropWhile s.data).symm
      _ = tokenCountAux ((s.data.dropWhile isWs).takeWhile (fun c => !isWs c) ++
            (s.data.dropWhile isWs).dropWhile (fun c => !isWs c)) false := by rw [hsplit]
      _ = 1 + tokenCountAux ((s.data.dropWhile isWs).dropWhile (fun c => !isWs c)) true :=
            tokenCountAux_token _ _ htokne htok
      _ = 1 + tokenCountAux ((s.data.dropWhile isWs).dropWhile (fun c => !isWs c)) false := by
            rw [tokenCountAux_start _ hrem]
      _ = tokenCount ((s.data.dropWhile isWs).dropWhile (fun c => !isWs c)) + 1 := by
            rw [tokenCount]; omega

theorem decodeEntry_state (s : Istream) :
    ((decodeEntry s).1) = (extractInt (extractInt (extractInt (extractInt s).1).1).1).1 := by
  simp only [decodeEntry]
  split <;> rfl

theorem decodeEntry_bad (s : Istream) : ((decodeEntry s).1).bad = s.bad := by
  rw [decodeEntry_state, extractInt_bad, extractInt_bad, extractInt_bad, extractInt_bad]

theorem decodeEntry_fail_tokens (s : Istream) (hs : s.fail = false)
    (h : ((decodeEntry s).1).fail = false) : 4 ≤ tokenCount s.data := by
  rw [decodeEntry_state] at h
  have h3 : ((extractInt (extractInt (extractInt s).1).1).1).fail = false :=
    extractInt_fail_rev _ h
  have h2 : ((extractInt (extractInt s).1).1).fail = false := extractInt_fail_rev _ h3
  have h1 : ((extractInt s).1).fail = false := extractInt_fail_rev _ h2
  have e1 := extractInt_succ_token s hs h1
  have e2 := extractInt_succ_token _ h1 h2
  have e3 := extractInt_succ_token _ h2 h3
  have e4 := extractInt_succ_token _ h3 h
  omega

theorem logAppend_length_le (l : List OdrCompilationLogEntry) (e : OdrCompilationLogEntry)
    (h : l.length ≤ kMaxLoggedEntries) : (logAppend l e).length ≤ kMaxLoggedEntries := by
  simp only [logAppend]
  split
  case isTrue hc =>
    simp only [List.length_tail, List.length_append, List.length_singleton]
    omega
  case isFalse hc =>
    simp only [List.length_append, List.length_singleton] at hc ⊢
    omega

theorem foldl_logAppend_window (es : List OdrCompilationLogEntry) :
    ∀ init : List OdrCompilationLogEntry, init.length ≤ kMaxLoggedEntries →
      es.foldl logAppend init = (init ++ es).drop ((init ++ es).length - kMaxLoggedEntries) := by
  induction es with
  | nil =>
    intro init h
    simp only [List.foldl_nil, List.append_nil]
    rw [Nat.sub_eq_zero_of_le h, List.drop_zero]
  | cons e es ih =>
    intro init h
    simp only [List.foldl_cons]
    by_cases hc : kMaxLoggedEntries < (init ++ [e]).length
    · have hlen : init.length = kMaxLoggedEntries := by
        simp only [List.length_append, List.length_singleton] at hc
        omega
      cases init with
      | nil =>
        exfalso
        have hpos : 0 < kMaxLoggedEntries := by decide
        simp only [List.length_nil] at hlen
        omega
      | cons a as =>
        have hApp : logAppend (a :: as) e = as ++ [e] := by
          simp only [logAppend, if_pos hc]
          rfl
        rw [hApp, ih (as ++ [e]) (by
          simp only [List.length_append, List.length_singleton]
          simp only [List.length_cons] at hlen
          omega)]
        have hL : (as ++ [e]) ++ es = as ++ e :: es := by simp
        have hR : (a :: as) ++ e :: es = a :: (as ++ e :: es) := by simp
        rw [hL, hR]
        have hlen2 : as.length + 1 = kMaxLoggedEntries := by
          simp only [List.length_cons] at hlen
          omega
        have h1 : (as ++ e :: es).length - kMaxLoggedEntries = es.length := by
          simp only [List.length_append, List.length_cons]
          omega
        have h2 : (a :: (as ++ e :: es)).length - kMaxLoggedEntries = es.length + 1 := by
          simp only [List.length_cons, List.length_append]
          omega
        rw [h1, h2, List.drop_succ_cons]
    · have hApp : logAppend init e = init ++ [e] := by
        simp only [logAppend, if_neg hc]
      rw [hApp, ih (init ++ [e]) (by
        simp only [List.length_append, List.length_singleton] at hc ⊢
        omega)]
      have hL : (init ++ [e]) ++ es = init ++ e :: es := by simp
      rw [hL]

theorem runLog_window (es : List OdrCompilationLogEntry) :
    runLog es = es.drop (es.length - kMaxLoggedEntries) := by
  have h := foldl_logAppend_window es [] (by simp)
  simpa [runLog] using h

theorem runLog_length_le (es : List OdrCompilationLogEntry) :
    (runLog es).length ≤ kMaxLoggedEntries := by
  rw [runLog_window, List.length_drop]
  omega

theorem decodeEntry_none_of_fail (s : Istream) (h : ((decodeEntry s).1).fail = true) :
    (decodeEntry s).2 = none := by
  rw [decodeEntry_state] at h
  simp only [decodeEntry, h]
  simp

theorem decodeEntry_ws_fail (w : List Char) (hw : ∀ c ∈ w, isWs c = true) :
    ((decodeEntry ⟨w, false, false⟩).1).fail = true := by
  have h0 : tokenCount w = 0 := by
    have hd : w.dropWhile isWs = [] := by
      rw [List.dropWhile_eq_nil_iff]
      exact hw
    rw [tokenCount, ← tokenCountAux_dropWhile, hd]
    rfl
  cases hf : ((decodeEntry ⟨w, false, false⟩).1).fail with
  | true => rfl
  | false =>
    have h4 := decodeEntry_fail_tokens ⟨w, false, false⟩ rfl hf
    rw [show (Istream.mk w false false).data = w from rfl, h0] at h4
    omega

theorem newline_all_ws : ∀ c ∈ ['\n'], isWs c = true := by
  intro c hc
  simp only [List.mem_singleton] at hc
  subst hc; decide

theorem readAllAux_encode (es : List OdrCompilationLogEntry) :
    ∀ (fuel : Nat) (w : List Char) (acc : List OdrCompilationLogEntry),
      es.length < fuel → (∀ c ∈ w, isWs c = true) →
      readAllAux fuel ⟨w ++ (es.map encodeEntry).flatten, false, false⟩ acc =
        acc.reverse ++ es := by
  induction es with
  | nil =>
    intro fuel w acc hf hw
    cases fuel with
    | zero => omega
    | succ f =>
      simp only [List.map_nil, List.flatten_nil, List.append_nil]
      have hfail := decodeEntry_ws_fail w hw
      have hnone := decodeEntry_none_of_fail ⟨w, false, false⟩ hfail
      rcases hde : decodeEntry ⟨w, false, false⟩ with ⟨s2, oe⟩
      rw [hde] at hnone
      simp only at hnone
      subst hnone
      simp [readAllAux, hde]
  | cons e es ih =>
    intro fuel w acc hf hw
    cases fuel with
    | zero => omega
    | succ f =>
      simp only [List.map_cons, List.flatten_cons]
      have hd : w ++ (encodeEntry e ++ (es.map encodeEntry).flatten) =
          w ++ encodeEntry e ++ (es.map encodeEntry).flatten :=
        (List.append_assoc _ _ _).symm
      rw [hd]
      have hde := decodeEntry_encode w hw e ((es.map encodeEntry).flatten)
      simp only [readAllAux, hde]
      have hin : '\n' :: (es.map encodeEntry).flatten =
          ['\n'] ++ (es.map encodeEntry).flatten := rfl
      rw [hin, ih f ['\n'] (e :: acc) (by
        simp only [List.length_cons] at hf
        omega) newline_all_ws]
      simp

theorem encodeEntry_length_pos (e : OdrCompilationLogEntry) : 0 < (encodeEntry e).length := by
  simp only [encodeEntry, List.length_append, List.length_cons]
  omega

theorem writeLogFile_length (l : List OdrCompilationLogEntry) :
    l.length ≤ (writeLogFile l).length := by
  induction l with
  | nil => simp [writeLogFile]
  | cons e es ih =>
    simp only [writeLogFile, List.map_cons, List.flatten_cons, List.length_append,
      List.length_cons] at ih ⊢
    have := encodeEntry_length_pos e
    omega

theorem readAllEntries_write (l : List OdrCompilationLogEntry) :
    readAllEntries (writeLogFile l) = l := by
  have hlen : l.length < (writeLogFile l).length + 1 :=
    Nat.lt_succ_of_le (writeLogFile_length l)
  have h := readAllAux_encode l ((writeLogFile l).length + 1) [] [] hlen (by simp)
  simpa [readAllEntries, writeLogFile] using h

theorem loadLog_write (l : List OdrCompilationLogEntry) (h : l.length ≤ kMaxLoggedEntries) :
    loadLog (writeLogFile l) = l := by
  simp only [loadLog, readAllEntries_write]
  rw [Nat.sub_eq_zero_of_le h, List.drop_zero]

theorem loadLog_nil : loadLog [] = [] := by rfl

theorem persistent_agrees (es : List OdrCompilationLogEntry) :
    ∀ (file : List Char) (L : List OdrCompilationLogEntry),
      loadLog file = L → L.length ≤ kMaxLoggedEntries →
      loadLog (es.foldl persistentStep file) = es.foldl logAppend L := by
  induction es with
  | nil => intro file L hL _; simpa using hL
  | cons e es ih =>
    intro file L hL hlen
    simp only [List.foldl_cons]
    have hstep : persistentStep file e = writeLogFile (logAppend L e) := by
      rw [persistentStep, hL]
    rw [hstep]
    exact ih (writeLogFile (logAppend L e)) (logAppend L e)
      (loadLog_write _ (logAppend_length_le L e hlen)) (logAppend_length_le L e hlen)

theorem loadLog_persistentRun (es : List OdrCompilationLogEntry) :
    loadLog (persistentRun es) = runLog es :=
  persistent_agrees es [] [] loadLog_nil (by simp)

theorem decodeN_encode (es : List OdrCompilationLogEntry) :
    ∀ (w : List Char), (∀ c ∈ w, isWs c = true) →
      (decodeN es.length ⟨w ++ (es.map encodeEntry).flatten, false, false⟩).2 = es ∧
      ((decodeN es.length ⟨w ++ (es.map encodeEntry).flatten, false, false⟩).1).fail = false ∧
      ((decodeN es.length ⟨w ++ (es.map encodeEntry).flatten, false, false⟩).1).bad = false := by
  induction es with
  | nil =>
    intro w hw
    simp [decodeN]
  | cons e es ih =>
    intro w hw
    simp only [List.map_cons, List.flatten_cons, List.length_cons]
    have hd : w ++ (encodeEntry e ++ (es.map encodeEntry).flatten) =
        w ++ encodeEntry e ++ (es.map encodeEntry).flatten :=
      (List.append_assoc _ _ _).symm
    have hde2 : decodeEntry ⟨w ++ (encodeEntry e ++ (es.map encodeEntry).flatten),
        false, false⟩ =
        (⟨'\n' :: (es.map encodeEntry).flatten, false, false⟩, some e) := by
      rw [hd]
      exact decodeEntry_encode w hw e ((es.map encodeEntry).flatten)
    obtain ⟨ih1, ih2, ih3⟩ := ih ['\n'] newline_all_ws
    simp only [List.singleton_append] at ih1 ih2 ih3
    rcases hdn : decodeN es.length ⟨'\n' :: (es.map encodeEntry).flatten, false, false⟩
      with ⟨s3, es3⟩
    rw [hdn] at ih1 ih2 ih3
    simp only at ih1 ih2 ih3
    simp [decodeN, hde2, hdn, ih1, ih2, ih3]

theorem findMatchNewest_eq (v t : Int) :
    ∀ l : List OdrCompilationLogEntry,
      findMatchNewest l v t = (l.filter (entryMatches v t)).head? := by
  intro l
  induction l with
  | nil => rfl
  | cons e rest ih =>
    cases hm : entryMatches v t e with
    | true => simp [findMatchNewest, hm, List.filter_cons]
    | false => simp [findMatchNewest, hm, List.filter_cons, ih]

theorem countFailNewest_eq (v t : Int) :
    ∀ l : List OdrCompilationLogEntry,
      countFailNewest l v t = ((l.filter (entryMatches v t)).takeWhile failureLike).length := by
  intro l
  induction l with
  | nil => rfl
  | cons e rest ih =>
    cases hm : entryMatches v t e with
    | false => simp [countFailNewest, hm, List.filter_cons, ih]
    | true =>
      cases hf : failureLike e with
      | true => simp [countFailNewest, hm, hf, List.filter_cons, List.takeWhile_cons, ih]
      | false => simp [countFailNewest, hm, hf, List.filter_cons, List.takeWhile_cons]

/-- Claim C1: whenever a most recent matching entry `e` exists,
`ShouldAttemptCompile` returns true iff `now - e.when` has reached the
backoff duration: half of one day in seconds when `e` succeeded, and
`2^(k-1)` days in seconds when `e` is failure-like with `k ≥ 1` the length of
the trailing consecutive run of matching failure-like entries ending at `e`;
equality with the threshold already permits the attempt. -/
theorem backoff_decision_c1 (l : List OdrCompilationLogEntry) (v t now : Int)
    (e : OdrCompilationLogEntry) (h : (matchingNewestFirst l v t).head? = some e) :
    (ShouldAttemptCompile l v t now = true ↔ specBackoff l v t e ≤ now - e.when) ∧
    (e.exit_code ≠ kCompilationSuccess → 1 ≤ trailingFailRun l v t) := by
  have hfind : findMatchNewest l.reverse v t = some e := by
    rw [findMatchNewest_eq]
    exact h
  constructor
  · simp only [ShouldAttemptCompile, hfind]
    cases hf : failureLike e with
    | true =>
      have hex : ¬ e.exit_code = kCompilationSuccess := by
        simpa [failureLike] using hf
      simp only [hf, if_true, specBackoff, if_neg hex, decide_eq_true_eq]
      rw [countFailNewest_eq]
      simp [trailingFailRun, matchingNewestFirst]
    | false =>
      have hex : e.exit_code = kCompilationSuccess := by
        simpa [failureLike] using hf
      simp only [hf, Bool.false_eq_true, if_false, specBackoff, if_pos hex, decide_eq_true_eq]
  · intro hex
    have hf : failureLike e = true := by simp [failureLike, hex]
    rcases hm : matchingNewestFirst l v t with _ | ⟨a, as⟩
    · rw [hm] at h
      exact absurd h (by simp)
    · rw [hm] at h
      simp only [List.head?_cons, Option.some.injEq] at h
      subst h
      simp [trailingFailRun, hm, List.takeWhile_cons, hf]

/-- Witness for C1: a single matching failure imposes a one-day backoff and
equality with the threshold permits the attempt. -/
theorem backoff_decision_c1_witness :
    ShouldAttemptCompile [⟨1, 1, 0, 3⟩] 1 1 86400 = true :=
  ((backoff_decision_c1 [⟨1, 1, 0, 3⟩] 1 1 86400 ⟨1, 1, 0, 3⟩ (by decide)).1).mpr (by decide)

/-- Claim C2: an entry matches the candidate iff it has an identical subject
version and the candidate trigger is either the distinguished unknown value or
equal to the stored trigger; whenever no entry of the history matches,
`ShouldAttemptCompile` returns true. -/
theorem match_rule_c2 (l : List OdrCompilationLogEntry) (v t now : Int) :
    (∀ e : OdrCompilationLogEntry, entryMatches v t e = true ↔
      (e.apex_version = v ∧ (t = kTriggerUnknown ∨ e.trigger = t))) ∧
    ((∀ e ∈ l, ¬ (e.apex_version = v ∧ (t = kTriggerUnknown ∨ e.trigger = t))) →
      ShouldAttemptCompile l v t now = true) := by
  have hchar : ∀ e : OdrCompilationLogEntry, entryMatches v t e = true ↔
      (e.apex_version = v ∧ (t = kTriggerUnknown ∨ e.trigger = t)) := by
    intro e
    simp [entryMatches, Bool.and_eq_true, Bool.or_eq_true, beq_iff_eq]
  refine ⟨hchar, fun hnone => ?_⟩
  have hmf : l.reverse.filter (entryMatches v t) = [] := by
    rw [List.filter_eq_nil_iff]
    intro a ha
    exact fun htrue => hnone a (List.mem_reverse.mp ha) ((hchar a).mp htrue)
  have hfind : findMatchNewest l.reverse v t = none := by
    rw [findMatchNewest_eq, hmf]
    rfl
  simp [ShouldAttemptCompile, hfind]

/-- Witness for C2: a history entry with a distinct concrete trigger does not
match, so the attempt is allowed. -/
theorem match_rule_c2_witness :
    ShouldAttemptCompile [⟨1, 1, 0, 2⟩] 1 2 0 = true :=
  (match_rule_c2 [⟨1, 1, 0, 2⟩] 1 2 0).2 (by decide)

/-- Claim C3: after appending a sequence of entries to an empty log, the
history retains exactly the last `min n kMaxLoggedEntries` entries in
oldest-first order: the count is that minimum and each peek index `j` returns
the `(n - count + j)`-th appended entry. -/
theorem bounded_window_c3 (es : List OdrCompilationLogEntry) :
    NumberOfEntries (runLog es) = min es.length kMaxLoggedEntries ∧
    ∀ j, j < NumberOfEntries (runLog es) →
      Peek (runLog es) j = es[es.length - NumberOfEntries (runLog es) + j]? := by
  have hw := runLog_window es
  have hlen : NumberOfEntries (runLog es) = es.length - (es.length - kMaxLoggedEntries) := by
    rw [NumberOfEntries, hw, List.length_drop]
  constructor
  · rw [hlen]
    omega
  · intro j hj
    rw [hlen, Peek, hw, List.getElem?_drop]
    congr 1
    omega

/-- Witness for C3: with five appended entries and capacity four, peek 0
returns the second appended entry. -/
theorem bounded_window_c3_witness :
    0 < NumberOfEntries (runLog [⟨0, 1, 2, 3⟩, ⟨1, 2, 3, 4⟩, ⟨2, 3, 4, 5⟩,
        ⟨3, 4, 5, 6⟩, ⟨4, 5, 6, 7⟩]) ∧
    Peek (runLog [⟨0, 1, 2, 3⟩, ⟨1, 2, 3, 4⟩, ⟨2, 3, 4, 5⟩, ⟨3, 4, 5, 6⟩, ⟨4, 5, 6, 7⟩]) 0 =
      [⟨0, 1, 2, 3⟩, ⟨1, 2, 3, 4⟩, ⟨2, 3, 4, 5⟩, ⟨3, 4, 5, 6⟩, ⟨4, 5, 6, 7⟩][
        ([⟨0, 1, 2, 3⟩, ⟨1, 2, 3, 4⟩, ⟨2, 3, 4, 5⟩, ⟨3, 4, 5, 6⟩,
          ⟨4, 5, 6, 7⟩] : List OdrCompilationLogEntry).length -
        NumberOfEntries (runLog [⟨0, 1, 2, 3⟩, ⟨1, 2, 3, 4⟩, ⟨2, 3, 4, 5⟩,
          ⟨3, 4, 5, 6⟩, ⟨4, 5, 6, 7⟩]) + 0]? :=
  ⟨by decide, (bounded_window_c3 [⟨0, 1, 2, 3⟩, ⟨1, 2, 3, 4⟩, ⟨2, 3, 4, 5⟩,
    ⟨3, 4, 5, 6⟩, ⟨4, 5, 6, 7⟩]).2 0 (by decide)⟩

/-- Claim C4: logging entries one at a time with the engine re-constructed
from the same file between log calls yields the same retained window (same
count, same entry at every peek index) and the same `ShouldAttemptCompile`
verdicts as logging them all within one long-lived in-memory instance. -/
theorem persistence_equiv_c4 (es : List OdrCompilationLogEntry) :
    loadLog (persistentRun es) = runLog es ∧
    NumberOfEntries (loadLog (persistentRun es)) = NumberOfEntries (runLog es) ∧
    (∀ j, Peek (loadLog (persistentRun es)) j = Peek (runLog es) j) ∧
    (∀ v t now, ShouldAttemptCompile (loadLog (persistentRun es)) v t now =
      ShouldAttemptCompile (runLog es) v t now) := by
  have h := loadLog_persistentRun es
  exact ⟨h, by rw [h], fun j => by rw [h], fun v t now => by rw [h]⟩

/-- Claim C5: decoding the encoded single-line form of any representable log
entry yields the original entry (and leaves the stream healthy, positioned at
the terminating newline). -/
theorem codec_roundtrip_c5 (e : OdrCompilationLogEntry) (_h : Representable e) :
    decodeEntry ⟨encodeEntry e, false, false⟩ = (⟨['\n'], false, false⟩, some e) := by
  have hd := decodeEntry_encode [] (by simp) e []
  simpa using hd

/-- Witness for C5 at extreme signed field values (int64 minimum apex version,
int32 minimum trigger, int64 maximum timestamp, int32 maximum exit code). -/
theorem codec_roundtrip_c5_witness :
    Representable ⟨-(2 ^ 63), -(2 ^ 31), 2 ^ 63 - 1, 2 ^ 31 - 1⟩ ∧
    decodeEntry ⟨encodeEntry ⟨-(2 ^ 63), -(2 ^ 31), 2 ^ 63 - 1, 2 ^ 31 - 1⟩, false, false⟩ =
      (⟨['\n'], false, false⟩, some ⟨-(2 ^ 63), -(2 ^ 31), 2 ^ 63 - 1, 2 ^ 31 - 1⟩) :=
  ⟨by decide, codec_roundtrip_c5 ⟨-(2 ^ 63), -(2 ^ 31), 2 ^ 63 - 1, 2 ^ 31 - 1⟩ (by decide)⟩

/-- Claim C6: decoding from a stream holding fewer than four
whitespace-separated tokens fails recoverably: the failbit is set but the
badbit is not. -/
theorem truncated_decode_c6 (d : List Char) (h : tokenCount d < 4) :
    ((decodeEntry ⟨d, false, false⟩).1).fail = true ∧
    ((decodeEntry ⟨d, false, false⟩).1).bad = false := by
  constructor
  · cases hf : ((decodeEntry ⟨d, false, false⟩).1).fail with
    | true => rfl
    | false =>
      have h4 := decodeEntry_fail_tokens ⟨d, false, false⟩ rfl hf
      rw [show (Istream.mk d false false).data = d from rfl] at h4
      omega
  · rw [decodeEntry_bad]

/-- Witness for C6 on the two-token stream of the truncated-input test. -/
theorem truncated_decode_c6_witness :
    tokenCount ['1', ' ', '2'] < 4 ∧
    ((decodeEntry ⟨['1', ' ', '2'], false, false⟩).1).fail = true ∧
    ((decodeEntry ⟨['1', ' ', '2'], false, false⟩).1).bad = false :=
  ⟨by decide, truncated_decode_c6 ['1', ' ', '2'] (by decide)⟩

/-- Claim C7: a stream holding the concatenated newline-separated encodings of
N entries decodes back the N original entries in order, with the stream left
healthy (failbit and badbit clear) after the N decodes. -/
theorem sequential_decode_c7 (es : List OdrCompilationLogEntry) :
    (decodeN es.length ⟨(es.map encodeEntry).flatten, false, false⟩).2 = es ∧
    ((decodeN es.length ⟨(es.map encodeEntry).flatten, false, false⟩).1).fail = false ∧
    ((decodeN es.length ⟨(es.map encodeEntry).flatten, false, false⟩).1).bad = false := by
  have h := decodeN_encode es [] (by simp)
  simpa using h

/-- Claim C8: entry equality is field-wise; two entries are equal exactly when
the subject version, trigger, timestamp, and outcome fields all coincide, so
changing any single field yields an unequal entry. -/
theorem entry_equality_c8 (a b : OdrCompilationLogEntry) :
    (entryEq a b = true ↔
      (a.apex_version = b.apex_version ∧ a.trigger = b.trigger ∧
        a.when = b.when ∧ a.exit_code = b.exit_code)) ∧
    (entryEq a b = true ↔ a = b) := by
  cases a
  cases b
  constructor
  · simp [entryEq, and_assoc]
  · simp [entryEq, and_assoc]

/-- Claim C9: the backoff decision is total and error-free: for every history,
subject version, trigger, and timestamp, `ShouldAttemptCompile` returns a
boolean. -/
theorem decision_total_c9 :
    ∀ (l : List OdrCompilationLogEntry) (v t now : Int),
      ShouldAttemptCompile l v t now = true ∨ ShouldAttemptCompile l v t now = false := by
  intro l v t now
  cases ShouldAttemptCompile l v t now
  · right; rfl
  · left; rfl

/-- Claim C10: the seven processing outcomes carry the fixed, distinct numeric
values 0 through 6 in declaration order. -/
theorem processing_result_codes_c10 :
    ProcessingResult.code .kSuccess = 0 ∧
    ProcessingResult.code .kCompile = 1 ∧
    ProcessingResult.code .kSkipCompilation = 2 ∧
    ProcessingResult.code .kErrorBadProfiles = 3 ∧
    ProcessingResult.code .kErrorIo = 4 ∧
    ProcessingResult.code .kErrorCannotLock = 5 ∧
    ProcessingResult.code .kErrorDifferentVersions = 6 ∧
    Function.Injective ProcessingResult.code := by
  refine ⟨rfl, rfl, rfl, rfl, rfl, rfl, rfl, ?_⟩
  intro a b
  revert a b
  decide
